import Mathlib

/-!
Shallow embedding of the GCN tutorial notebook (`src/t08/GNN_tutorial.ipynb`).

The algorithmic core of the notebook is:

* `GraphConvolution` — a graph-convolution layer with a weight matrix of shape
  `(in_features, out_features)` and a bias of shape `(out_features)`, whose
  `forward` computes `adj · (x · weight) + bias` (bias broadcast across rows),
  and whose `reset_parameters` draws every entry of weight and bias uniformly
  from `[-stdv, stdv)` with `stdv = 1 / sqrt(out_features)`;
* `GCN` — two such layers with an elementwise `relu` in between;
* `get_predictions` / `accuracy` — per-row argmax compared with integer labels,
  averaged over the rows;
* a fixed-epoch training loop recording the cross-entropy loss on the train
  index set at every epoch.

Tensors are embedded as Mathlib matrices over a linear ordered field (`ℚ` at
concrete instances); shapes are carried by the types.  The autodiff engine,
the Adam optimizer and the cross-entropy loss are external collaborators and
enter the embedding as abstract function parameters.
-/

namespace GNNTutorial

/-- Parameter state of the `GraphConvolution` layer: `self.weight` of shape
`(in_features, out_features)` and `self.bias` of shape `(out_features)`. -/
structure GraphConvolution (α : Type) (in_features out_features : ℕ) where
  weight : Matrix (Fin in_features) (Fin out_features) α
  bias : Fin out_features → α

variable {α : Type} [LinearOrderedField α]

/-- Broadcast of a bias vector across all `N` rows: the tensor that
`output + self.bias` adds to `output`. -/
def biasBroadcast (N : ℕ) {C : ℕ} (b : Fin C → α) : Matrix (Fin N) (Fin C) α :=
  Matrix.of fun _ j => b j

/-- Forward pass `GraphConvolution.forward`: `support = torch.mm(x, self.weight)`, then
`output = torch.spmm(adj, support)`, then return `output + self.bias`. -/
def GraphConvolution.forward {inF outF : ℕ} (gc : GraphConvolution α inF outF)
    {N : ℕ} (x : Matrix (Fin N) (Fin inF) α) (adj : Matrix (Fin N) (Fin N) α) :
    Matrix (Fin N) (Fin outF) α :=
  let support := x * gc.weight
  let output := adj * support
  output + biasBroadcast N gc.bias

/-- The model `GCN`: `self.gc1 = GraphConvolution(input_features, hidden_dim)`
and `self.gc2 = GraphConvolution(hidden_dim, num_classes)`. -/
structure GCN (α : Type) (input_features hidden_dim num_classes : ℕ) where
  gc1 : GraphConvolution α input_features hidden_dim
  gc2 : GraphConvolution α hidden_dim num_classes

/-- Elementwise rectified linear unit, `F.relu` on one scalar. -/
def relu (x : α) : α := max x 0

/-- Elementwise `F.relu` applied to a whole tensor, elementwise. -/
def reluMat {N C : ℕ} (M : Matrix (Fin N) (Fin C) α) : Matrix (Fin N) (Fin C) α :=
  Matrix.of fun i j => relu (M i j)

/-- The index returned by `output.max(1)[1]` for one row: the position of the
first maximal entry of the row (`List.argmax` returns the first element
attaining the maximum, which is the tie-breaking rule of `torch.max`);
`none` when the row has no entries. -/
def rowArgmax {C : ℕ} (row : Fin C → α) : Option ℕ :=
  ((List.finRange C).argmax row).map Fin.val

/-- Utility `get_predictions`: `preds = output.max(1)[1].type_as(labels)`;
`correct = preds.eq(labels).double()`; the indicator vector of the rows whose
predicted class equals the label. -/
def get_predictions {N C : ℕ} (output : Matrix (Fin N) (Fin C) α)
    (labels : Fin N → ℕ) : Fin N → α :=
  fun i => if rowArgmax (output i) = some (labels i) then 1 else 0

/-- Utility `accuracy`: `correct = get_predictions(output, labels)` summed, divided by
`len(labels)`.  When `len(labels) = 0` the tensor division `correct.sum() / 0`
produces a non-finite float (NaN), modelled here as `none`. -/
def accuracy {N C : ℕ} (output : Matrix (Fin N) (Fin C) α)
    (labels : Fin N → ℕ) : Option α :=
  let correct := get_predictions output labels
  let total := ∑ i, correct i
  if N = 0 then none else some (total / N)

/-- Forward pass `GCN.forward`: `x = self.gc1(x, adj)`, `x = F.relu(x)`,
`x = self.gc2(x, adj)`, `return x`. -/
def GCN.forward {inF hid cls : ℕ} (m : GCN α inF hid cls) {N : ℕ}
    (x : Matrix (Fin N) (Fin inF) α) (adj : Matrix (Fin N) (Fin N) α) :
    Matrix (Fin N) (Fin cls) α :=
  let x1 := m.gc1.forward x adj
  let x2 := reluMat x1
  m.gc2.forward x2 adj

/-- One entry of `tensor.uniform_(lo, hi)`: the affine image in `[lo, hi)` of
one draw `u` from the uniform distribution on `[0, 1)`. -/
def uniformSample (lo hi u : α) : α := lo + u * (hi - lo)

/-- The bound computed by `GraphConvolution.reset_parameters`:
`stdv = 1.0 / math.sqrt(self.weight.size(1))`, where `self.weight.size(1)` is
`out_features` — a function of the output dimension alone. -/
noncomputable def resetStdv (out_features : ℕ) : ℝ :=
  1 / Real.sqrt out_features

/-- Initialization `GraphConvolution.reset_parameters`:
`self.weight.data.uniform_(-stdv, stdv)` and `self.bias.data.uniform_(-stdv, stdv)`,
each entry consuming its own independent draw (`uW i j` for weight entry
`(i, j)`, `uB j` for bias entry `j`) from the uniform distribution on `[0, 1)`. -/
noncomputable def reset_parameters (inF outF : ℕ)
    (uW : Fin inF → Fin outF → ℝ) (uB : Fin outF → ℝ) :
    GraphConvolution ℝ inF outF where
  weight := Matrix.of fun i j =>
    uniformSample (-resetStdv outF) (resetStdv outF) (uW i j)
  bias := fun j => uniformSample (-resetStdv outF) (resetStdv outF) (uB j)

/-- The row-wise two-layer MLP that the specification compares the GCN against
in the identity-adjacency case: a linear map with `gc1`'s weight and bias, an
elementwise relu, then a linear map with `gc2`'s weight and bias, applied to a
single node's feature row. -/
def rowMLPSpec {inF hid cls : ℕ} (m : GCN α inF hid cls) (v : Fin inF → α) :
    Fin cls → α :=
  fun c =>
    (∑ h, relu ((∑ f, v f * m.gc1.weight f h) + m.gc1.bias h) * m.gc2.weight h c)
      + m.gc2.bias c

/-- State carried across training iterations: the optimizer's internal state
(Adam moment estimates, abstract), the current model parameters, and the list
of recorded loss values. -/
structure TrainState (σ : Type) (α : Type) (inF hid cls : ℕ) where
  optState : σ
  model : GCN α inF hid cls
  losses : List α

/-- One iteration of the training loop:
`output = gcn(features, adj)` — one forward pass over the whole graph;
`loss = F.cross_entropy(output[idx_train], labels[idx_train])` — restricted to
the train index set; `loss.backward(); opt.step()` — the external
autodiff-plus-Adam collaborator, abstracted as `optStep` acting on the
optimizer state and the current model (features, adjacency, labels and train
indices are fixed throughout the loop); `losses.append(loss.item())`. -/
def trainStep {σ : Type} {inF hid cls N T : ℕ}
    (optStep : σ → GCN α inF hid cls → σ × GCN α inF hid cls)
    (cross_entropy : Matrix (Fin T) (Fin cls) α → (Fin T → ℕ) → α)
    (features : Matrix (Fin N) (Fin inF) α) (adj : Matrix (Fin N) (Fin N) α)
    (labels : Fin N → ℕ) (idx_train : Fin T → Fin N)
    (s : TrainState σ α inF hid cls) : TrainState σ α inF hid cls :=
  let output := s.model.forward features adj
  let loss := cross_entropy (output.submatrix idx_train id)
    (fun t => labels (idx_train t))
  let stepped := optStep s.optState s.model
  { optState := stepped.1, model := stepped.2, losses := s.losses ++ [loss] }

/-- The training loop `for epoch in trange(epochs): ...`: exactly `epochs`
iterations of `trainStep`, starting from the freshly constructed optimizer
state, the initial model, and `losses = []`; there is no convergence-based
stopping. -/
def trainLoop {σ : Type} {inF hid cls N T : ℕ}
    (optStep : σ → GCN α inF hid cls → σ × GCN α inF hid cls)
    (cross_entropy : Matrix (Fin T) (Fin cls) α → (Fin T → ℕ) → α)
    (features : Matrix (Fin N) (Fin inF) α) (adj : Matrix (Fin N) (Fin N) α)
    (labels : Fin N → ℕ) (idx_train : Fin T → Fin N)
    (epochs : ℕ) (opt0 : σ) (gcn0 : GCN α inF hid cls) :
    TrainState σ α inF hid cls :=
  (trainStep optStep cross_entropy features adj labels idx_train)^[epochs]
    { optState := opt0, model := gcn0, losses := [] }

end GNNTutorial

namespace GNNTutorial

/-- C1: `GraphConvolution.forward X A` is the matrix `A · (X · W)` with the bias
added to every row; its shape `(N, out_features)` is carried by its type
`Matrix (Fin N) (Fin outF) α`. -/
theorem graphConvolution_forward_spec {α : Type} [LinearOrderedField α]
    {inF outF N : ℕ} (gc : GraphConvolution α inF outF)
    (x : Matrix (Fin N) (Fin inF) α) (adj : Matrix (Fin N) (Fin N) α) :
    ∀ i j, gc.forward x adj i j = (adj * (x * gc.weight)) i j + gc.bias j :=
  fun _ _ => rfl

/-- C2: with adjacency and parameters fixed, the forward pass satisfies
`forward (a·X1 + b·X2) = a·forward X1 + b·forward X2 - (a+b-1)·bias` (bias
broadcast across rows), and it is exactly linear when the bias is zero. -/
theorem graphConvolution_forward_linear {α : Type} [LinearOrderedField α]
    {inF outF N : ℕ} (gc : GraphConvolution α inF outF) (a b : α)
    (x1 x2 : Matrix (Fin N) (Fin inF) α) (adj : Matrix (Fin N) (Fin N) α) :
    gc.forward (a • x1 + b • x2) adj
      = a • gc.forward x1 adj + b • gc.forward x2 adj
        - (a + b - 1) • biasBroadcast N gc.bias
    ∧ (gc.bias = 0 →
        gc.forward (a • x1 + b • x2) adj
          = a • gc.forward x1 adj + b • gc.forward x2 adj) := by
  constructor
  · unfold GraphConvolution.forward
    simp only [Matrix.add_mul, Matrix.smul_mul, Matrix.mul_add, Matrix.mul_smul]
    ext i j
    simp [biasBroadcast, Matrix.add_apply, Matrix.smul_apply, Matrix.sub_apply]
    ring
  · intro hb
    unfold GraphConvolution.forward
    simp only [Matrix.add_mul, Matrix.smul_mul, Matrix.mul_add, Matrix.mul_smul]
    ext i j
    simp [biasBroadcast, hb, Matrix.add_apply, Matrix.smul_apply]

/-- Witness for C2 at a concrete instance: the zero-bias hypothesis is
discharged on a 1×1 layer with zero bias. -/
theorem graphConvolution_forward_linear_witness :
    (GraphConvolution.mk !![(1 : ℚ)] (0 : Fin 1 → ℚ)).forward
        ((2 : ℚ) • !![(5 : ℚ)] + (3 : ℚ) • !![(7 : ℚ)]) !![(1 : ℚ)]
      = (2 : ℚ) • (GraphConvolution.mk !![(1 : ℚ)] (0 : Fin 1 → ℚ)).forward !![(5 : ℚ)] !![(1 : ℚ)]
        + (3 : ℚ) • (GraphConvolution.mk !![(1 : ℚ)] (0 : Fin 1 → ℚ)).forward !![(7 : ℚ)] !![(1 : ℚ)] :=
  (graphConvolution_forward_linear (GraphConvolution.mk !![(1 : ℚ)] (0 : Fin 1 → ℚ)) 2 3
    !![(5 : ℚ)] !![(7 : ℚ)] !![(1 : ℚ)]).2 rfl

/-- Helper: an affine uniform sample in `[lo, hi)` stays in `[lo, hi]` when the
underlying draw lies in `[0, 1)`. -/
theorem uniformSample_mem_Icc {α : Type} [LinearOrderedField α] {lo hi u : α}
    (hle : lo ≤ hi) (hu0 : 0 ≤ u) (hu1 : u < 1) :
    uniformSample lo hi u ∈ Set.Icc lo hi := by
  unfold uniformSample
  constructor
  · nlinarith
  · nlinarith

/-- C3: after `reset_parameters`, every weight entry and every bias entry is
the affine image of its own uniform draw and lies in
`[-1/sqrt(out_features), 1/sqrt(out_features)]`; the bound `resetStdv` used
for the bias is the same `1 / Real.sqrt out_features` used for the weight,
a function of the output dimension only (it takes no other argument). -/
theorem reset_parameters_uniform_bound {inF outF : ℕ} (hOut : 0 < outF)
    (uW : Fin inF → Fin outF → ℝ) (uB : Fin outF → ℝ)
    (hW : ∀ i j, uW i j ∈ Set.Ico (0 : ℝ) 1)
    (hB : ∀ j, uB j ∈ Set.Ico (0 : ℝ) 1) :
    (∀ i j, (reset_parameters inF outF uW uB).weight i j
        ∈ Set.Icc (-(1 / Real.sqrt outF)) (1 / Real.sqrt outF))
    ∧ (∀ j, (reset_parameters inF outF uW uB).bias j
        ∈ Set.Icc (-(1 / Real.sqrt outF)) (1 / Real.sqrt outF))
    ∧ resetStdv outF = 1 / Real.sqrt outF := by
  have hs : (0 : ℝ) < 1 / Real.sqrt outF := by
    have : (0 : ℝ) < Real.sqrt outF := Real.sqrt_pos.mpr (by exact_mod_cast hOut)
    positivity
  have hle : -(1 / Real.sqrt (outF : ℝ)) ≤ 1 / Real.sqrt (outF : ℝ) := by linarith
  refine ⟨fun i j => ?_, fun j => ?_, rfl⟩
  · exact uniformSample_mem_Icc hle (hW i j).1 (hW i j).2
  · exact uniformSample_mem_Icc hle (hB j).1 (hB j).2

/-- Witness for C3: a layer with `in_features = 1`, `out_features = 4`, the
weight draw `0` and the bias draw `1/2`; the bias entry lands in
`[-1/sqrt 4, 1/sqrt 4]`. -/
theorem reset_parameters_uniform_bound_witness :
    (reset_parameters 1 4 (fun _ _ => 0) (fun _ => 1 / 2)).bias 0
      ∈ Set.Icc (-(1 / Real.sqrt 4)) (1 / Real.sqrt 4) := by
  have h := (@reset_parameters_uniform_bound 1 4 (by decide)
    (fun _ _ => 0) (fun _ => 1 / 2)
    (fun i j => ⟨le_refl 0, by norm_num⟩)
    (fun j => ⟨by norm_num, by norm_num⟩)).2.1 0
  simpa using h

/-- C5: on a non-empty logits matrix, `accuracy` returns the number of rows
whose first-maximal-entry index equals the label, divided by the number of
rows. -/
theorem accuracy_spec {α : Type} [LinearOrderedField α] {N C : ℕ} (hN : 0 < N)
    (output : Matrix (Fin N) (Fin C) α) (labels : Fin N → ℕ) :
    accuracy output labels
      = some ((((Finset.univ.filter
            fun i => rowArgmax (output i) = some (labels i)).card : α)) / N) := by
  unfold accuracy get_predictions
  rw [if_neg hN.ne', Finset.sum_boole]

/-- Witness for C5: a 1×2 logits matrix whose (unique) row has its maximum in
column 1 and whose label is 1, giving accuracy `some 1`. -/
theorem accuracy_spec_witness :
    accuracy !![(1 : ℚ), 2] (fun _ => 1)
      = some ((((Finset.univ.filter
            fun i => rowArgmax ((!![(1 : ℚ), 2]) i) = some 1).card : ℚ)) / 1) :=
  accuracy_spec (by decide) !![(1 : ℚ), 2] (fun _ => 1)

/-- C6: applied to an empty logits matrix and empty label vector, `accuracy`
does not fail with an explicit empty-input error: it silently divides by
`len(labels) = 0`, producing NaN (modelled as `none`). -/
theorem accuracy_empty_returns_nan :
    accuracy (α := ℚ) (Matrix.of fun (_ : Fin 0) (_ : Fin 2) => 0)
        (fun (_ : Fin 0) => 0) = none :=
  rfl

/-- Helper: `List.argAux` only looks at the relation propositionally, so two
pointwise-equivalent relations fold identically. -/
theorem argAux_congr {β : Type} (r₁ r₂ : β → β → Prop)
    [DecidableRel r₁] [DecidableRel r₂] (h : ∀ x y, r₁ x y ↔ r₂ x y)
    (o : Option β) (b : β) : List.argAux r₁ o b = List.argAux r₂ o b := by
  cases o with
  | none => rfl
  | some c => simp only [List.argAux]; exact if_congr (h b c) rfl rfl

/-- Helper: post-composing the scoring function with a strictly increasing map
does not change `List.argmax` (the comparisons, and hence the fold, agree). -/
theorem argmax_comp_strictMono {α β : Type} [LinearOrder α] (f : β → α)
    {g : α → α} (hg : StrictMono g) (l : List β) :
    l.argmax (fun b => g (f b)) = l.argmax f := by
  unfold List.argmax
  apply List.foldl_ext
  intro o b _
  exact argAux_congr _ _ (fun x y => hg.lt_iff_lt) o b

/-- Helper: `rowArgmax` is invariant under a strictly increasing transform of
the row's entries. -/
theorem rowArgmax_comp_strictMono {α : Type} [LinearOrderedField α] {C : ℕ}
    (row : Fin C → α) {g : α → α} (hg : StrictMono g) :
    rowArgmax (fun j => g (row j)) = rowArgmax row := by
  unfold rowArgmax
  rw [argmax_comp_strictMono row hg]

/-- C10: applying to each row `i` of a non-empty logits matrix its own
strictly increasing function `g i` leaves the accuracy unchanged, because each
row's first-maximal index is unchanged.  A row-wise softmax is an instance:
on row `i` it acts entrywise as `x ↦ exp x / S i` with `S i > 0` the row's
normalizer, a strictly increasing map, so raw logits and softmax probabilities
give the same accuracy. -/
theorem accuracy_rowwise_strictMono_invariant {α : Type} [LinearOrderedField α]
    {N C : ℕ} (hN : 0 < N) (output : Matrix (Fin N) (Fin C) α)
    (labels : Fin N → ℕ) (g : Fin N → α → α) (hg : ∀ i, StrictMono (g i)) :
    accuracy (Matrix.of fun i j => g i (output i j)) labels
      = accuracy output labels := by
  unfold accuracy get_predictions
  have hrow : ∀ i : Fin N,
      rowArgmax ((Matrix.of fun i j => g i (output i j)) i) = rowArgmax (output i) :=
    fun i => rowArgmax_comp_strictMono (output i) (hg i)
  simp only [hrow]

/-- Witness for C10: a non-empty 2×2 logits matrix whose two rows receive
different strictly increasing transforms (`x ↦ 3 * x + 1` on row 0 and
`x ↦ x + 5` on row 1, the shape of a per-row positive rescaling). -/
theorem accuracy_rowwise_strictMono_invariant_witness :
    accuracy (Matrix.of fun i j =>
        (if i = 0 then 3 * (!![(1 : ℚ), 2; 3, 0]) i j + 1
          else (!![(1 : ℚ), 2; 3, 0]) i j + 5)) ![1, 0]
      = accuracy !![(1 : ℚ), 2; 3, 0] ![1, 0] :=
  accuracy_rowwise_strictMono_invariant (by decide) !![(1 : ℚ), 2; 3, 0] ![1, 0]
    (fun i x => if i = 0 then 3 * x + 1 else x + 5)
    (fun i a b h => by
      by_cases h0 : i = 0 <;> simp only [h0, if_true, if_false] <;> linarith)

/-- C4: `GCN.forward` is exactly the second layer applied to the elementwise
relu of the first layer's output: the nonlinearity is applied once, between
the layers, and no softmax is applied to the returned logits. -/
theorem gcn_forward_spec {α : Type} [LinearOrderedField α]
    {inF hid cls N : ℕ} (m : GCN α inF hid cls)
    (x : Matrix (Fin N) (Fin inF) α) (adj : Matrix (Fin N) (Fin N) α) :
    m.forward x adj = m.gc2.forward (reluMat (m.gc1.forward x adj)) adj :=
  rfl

/-- Helper: permuting the rows of the features and simultaneously the rows and
columns of the adjacency permutes the rows of one layer's output. -/
theorem graphConvolution_forward_perm {α : Type} [LinearOrderedField α]
    {inF outF N : ℕ} (gc : GraphConvolution α inF outF)
    (e : Equiv.Perm (Fin N)) (x : Matrix (Fin N) (Fin inF) α)
    (adj : Matrix (Fin N) (Fin N) α) :
    gc.forward (x.submatrix e id) (adj.submatrix e e)
      = (gc.forward x adj).submatrix (⇑e) id := by
  unfold GraphConvolution.forward
  ext i j
  simp only [Matrix.add_apply, Matrix.submatrix_apply, id_eq, biasBroadcast,
    Matrix.of_apply, Matrix.mul_apply]
  congr 1
  exact Fintype.sum_equiv e _ _ fun k => rfl

/-- Helper: the elementwise relu commutes with row permutation. -/
theorem reluMat_perm {α : Type} [LinearOrderedField α] {N C : ℕ}
    (e : Equiv.Perm (Fin N)) (M : Matrix (Fin N) (Fin C) α) :
    reluMat (M.submatrix (⇑e) id) = (reluMat M).submatrix (⇑e) id :=
  rfl

/-- Helper: the two-layer model's output rows are permuted when the node
ordering is permuted consistently in features and adjacency. -/
theorem gcn_forward_perm {α : Type} [LinearOrderedField α]
    {inF hid cls N : ℕ} (m : GCN α inF hid cls) (e : Equiv.Perm (Fin N))
    (x : Matrix (Fin N) (Fin inF) α) (adj : Matrix (Fin N) (Fin N) α) :
    m.forward (x.submatrix e id) (adj.submatrix e e)
      = (m.forward x adj).submatrix (⇑e) id := by
  show (m.gc2.forward (reluMat (m.gc1.forward (x.submatrix e id) (adj.submatrix e e)))
      (adj.submatrix e e)) = _
  rw [graphConvolution_forward_perm m.gc1 e x adj, reluMat_perm,
    graphConvolution_forward_perm m.gc2 e (reluMat (m.gc1.forward x adj)) adj]
  rfl

/-- Helper: `accuracy` is invariant under applying the same permutation to the
rows of the logits and to the label vector. -/
theorem accuracy_perm {α : Type} [LinearOrderedField α] {N C : ℕ}
    (e : Equiv.Perm (Fin N)) (output : Matrix (Fin N) (Fin C) α)
    (labels : Fin N → ℕ) :
    accuracy (output.submatrix (⇑e) id) (fun i => labels (e i))
      = accuracy output labels := by
  unfold accuracy get_predictions
  have hsum :
      (∑ i, if rowArgmax ((output.submatrix (⇑e) id) i) = some (labels (e i))
          then (1 : α) else 0)
        = ∑ i, if rowArgmax (output i) = some (labels i) then (1 : α) else 0 :=
    Equiv.sum_comp e fun i =>
      if rowArgmax (output i) = some (labels i) then (1 : α) else 0
  simp only [Matrix.submatrix_apply, id_eq] at hsum ⊢
  rw [hsum]

/-- C7: relabeling the nodes by any permutation — applied simultaneously to
the feature rows, to both indices of the adjacency matrix, and to the label
vector — leaves the accuracy of the two-layer GCN unchanged, for every fixed
parameter state. -/
theorem gcn_accuracy_perm_invariant {α : Type} [LinearOrderedField α]
    {inF hid cls N : ℕ} (m : GCN α inF hid cls) (e : Equiv.Perm (Fin N))
    (x : Matrix (Fin N) (Fin inF) α) (adj : Matrix (Fin N) (Fin N) α)
    (labels : Fin N → ℕ) :
    accuracy (m.forward (x.submatrix e id) (adj.submatrix e e))
        (fun i => labels (e i))
      = accuracy (m.forward x adj) labels := by
  rw [gcn_forward_perm m e x adj]
  exact accuracy_perm e (m.forward x adj) labels

/-- Helper: against the identity adjacency, one layer is a per-row affine map. -/
theorem graphConvolution_forward_one {α : Type} [LinearOrderedField α]
    {inF outF N : ℕ} (gc : GraphConvolution α inF outF)
    (y : Matrix (Fin N) (Fin inF) α) (i : Fin N) (j : Fin outF) :
    gc.forward y 1 i j = (∑ f, y i f * gc.weight f j) + gc.bias j := by
  show ((1 : Matrix (Fin N) (Fin N) α) * (y * gc.weight) + biasBroadcast N gc.bias) i j = _
  rw [Matrix.one_mul]
  simp [biasBroadcast, Matrix.add_apply, Matrix.mul_apply]

/-- C8: with the identity adjacency matrix, row `i` of `GCN.forward X I` is
the row-wise two-layer MLP (linear, relu, linear, same weights and biases)
applied to row `i` of `X`; consequently row `i` of the output depends only on
row `i` of the features. -/
theorem gcn_forward_identity_rowwise {α : Type} [LinearOrderedField α]
    {inF hid cls N : ℕ} (m : GCN α inF hid cls)
    (x : Matrix (Fin N) (Fin inF) α) :
    (∀ i, m.forward x (1 : Matrix (Fin N) (Fin N) α) i = rowMLPSpec m (x i))
    ∧ ∀ (x' : Matrix (Fin N) (Fin inF) α) (i : Fin N), x i = x' i →
        m.forward x 1 i = m.forward x' 1 i := by
  have hfwd : ∀ (y : Matrix (Fin N) (Fin inF) α) (i : Fin N),
      m.forward y 1 i = rowMLPSpec m (y i) := by
    intro y i
    funext c
    show m.gc2.forward (reluMat (m.gc1.forward y 1)) 1 i c = _
    rw [graphConvolution_forward_one m.gc2]
    unfold rowMLPSpec
    congr 1
    apply Finset.sum_congr rfl
    intro h _
    congr 1
    show relu (m.gc1.forward y 1 i h) = _
    rw [graphConvolution_forward_one m.gc1]
  refine ⟨fun i => hfwd x i, fun x' i hrow => ?_⟩
  rw [hfwd x i, hfwd x' i, hrow]

/-- Witness for C8: two feature matrices sharing row 0 produce the same output
row 0 under the identity adjacency. -/
theorem gcn_forward_identity_rowwise_witness :
    (GCN.mk (GraphConvolution.mk !![(1 : ℚ)] (0 : Fin 1 → ℚ))
        (GraphConvolution.mk !![(1 : ℚ)] (0 : Fin 1 → ℚ))).forward
        !![(2 : ℚ); 5] 1 0
      = (GCN.mk (GraphConvolution.mk !![(1 : ℚ)] (0 : Fin 1 → ℚ))
          (GraphConvolution.mk !![(1 : ℚ)] (0 : Fin 1 → ℚ))).forward
          !![(2 : ℚ); 9] 1 0 :=
  (gcn_forward_identity_rowwise
      (GCN.mk (GraphConvolution.mk !![(1 : ℚ)] (0 : Fin 1 → ℚ))
        (GraphConvolution.mk !![(1 : ℚ)] (0 : Fin 1 → ℚ)))
      !![(2 : ℚ); 5]).2 !![(2 : ℚ); 9] 0 (by funext j; fin_cases j <;> rfl)

/-- Helper: unrolling one iteration of the training loop. -/
theorem trainLoop_succ {σ α : Type} [LinearOrderedField α]
    {inF hid cls N T : ℕ}
    (optStep : σ → GCN α inF hid cls → σ × GCN α inF hid cls)
    (cross_entropy : Matrix (Fin T) (Fin cls) α → (Fin T → ℕ) → α)
    (features : Matrix (Fin N) (Fin inF) α) (adj : Matrix (Fin N) (Fin N) α)
    (labels : Fin N → ℕ) (idx_train : Fin T → Fin N)
    (opt0 : σ) (gcn0 : GCN α inF hid cls) (E : ℕ) :
    trainLoop optStep cross_entropy features adj labels idx_train (E + 1) opt0 gcn0
      = trainStep optStep cross_entropy features adj labels idx_train
          (trainLoop optStep cross_entropy features adj labels idx_train E opt0 gcn0) :=
  Function.iterate_succ_apply' _ _ _

/-- C9: the training loop runs exactly `epochs` iterations (no early
stopping): the recorded loss list is precisely the list, over
`e = 0, …, epochs-1`, of the cross-entropy of the train-index rows of a
full-graph forward pass of the model after `e` optimizer steps; hence it has
length exactly `epochs`, and each iteration applies exactly one optimizer
step to the previous model and optimizer state. -/
theorem trainLoop_spec {σ α : Type} [LinearOrderedField α]
    {inF hid cls N T : ℕ}
    (optStep : σ → GCN α inF hid cls → σ × GCN α inF hid cls)
    (cross_entropy : Matrix (Fin T) (Fin cls) α → (Fin T → ℕ) → α)
    (features : Matrix (Fin N) (Fin inF) α) (adj : Matrix (Fin N) (Fin N) α)
    (labels : Fin N → ℕ) (idx_train : Fin T → Fin N)
    (opt0 : σ) (gcn0 : GCN α inF hid cls) (epochs : ℕ) :
    (trainLoop optStep cross_entropy features adj labels idx_train epochs opt0 gcn0).losses
      = (List.range epochs).map (fun e =>
          cross_entropy
            (((trainLoop optStep cross_entropy features adj labels idx_train e opt0
                gcn0).model.forward features adj).submatrix idx_train id)
            (fun t => labels (idx_train t)))
    ∧ (trainLoop optStep cross_entropy features adj labels idx_train epochs opt0
        gcn0).losses.length = epochs
    ∧ ∀ e : ℕ,
        (trainLoop optStep cross_entropy features adj labels idx_train (e + 1) opt0
            gcn0).model
          = (optStep
              (trainLoop optStep cross_entropy features adj labels idx_train e opt0
                gcn0).optState
              (trainLoop optStep cross_entropy features adj labels idx_train e opt0
                gcn0).model).2 := by
  have hmain : ∀ E : ℕ,
      (trainLoop optStep cross_entropy features adj labels idx_train E opt0 gcn0).losses
        = (List.range E).map (fun e =>
            cross_entropy
              (((trainLoop optStep cross_entropy features adj labels idx_train e opt0
                  gcn0).model.forward features adj).submatrix idx_train id)
              (fun t => labels (idx_train t))) := by
    intro E
    induction E with
    | zero => rfl
    | succ E ih =>
      rw [trainLoop_succ]
      show (trainLoop optStep cross_entropy features adj labels idx_train E opt0
            gcn0).losses ++ [_] = _
      rw [ih, List.range_succ, List.map_append]
      rfl
  refine ⟨hmain epochs, ?_, fun e => by rw [trainLoop_succ]; rfl⟩
  rw [hmain epochs]
  simp

end GNNTutorial
